import Mathlib

/-
Verification development for the `time_crystal_analyzer` repository (file `tca.py`).

The repository is a single Python class `TimeCrystalAnalyzer` built on numpy/scipy.
This file gives a shallow embedding of its frequency-decomposition pipeline:

  * `find_dominant_frequencies`: FFT magnitude spectrum + `scipy.signal.find_peaks`
    (height / distance / prominence thresholds), prominence-descending sort, top 5;
  * `extract_components`: per-frequency Butterworth bandpass design
    (`butter_bandpass`) and zero-phase filtering (`scipy.signal.filtfilt`);
  * `analyze_phases`: Hilbert-transform instantaneous phase, unwrapping, and
    relative-phase wrapping into [0, 2*pi);
  * `analyze_signal`: the sequential composition of the three stages.

Real samples are modelled by `Real`, frequencies and the sample rate by `Rat`
(the frequency grid `k * rate / n` is exact rational arithmetic).  Python / library
exceptions are modelled by `Except TCAError`; `TCAError` also lists the exception
classes named by the specification (`InvalidSignalError`, `FilterDesignError`)
that the code itself never defines nor raises, so that claims mentioning them can
be stated and compared against the errors the code actually produces.

The numeric output of `scipy.signal.filtfilt` (filter coefficient arithmetic) is
the one library routine not modelled to the sample level: every theorem that
touches it is parametric in a function `sem : ButterCoeffs → List ℝ → List ℝ`
giving the samples filtfilt would return for a designed filter, so the theorems
hold for every interpretation of that arithmetic.  Everything else — the DFT,
the peak-finding algorithm of `scipy.signal.find_peaks`, the Hilbert filter,
`np.unwrap`, `np.angle`, `%` — is modelled from the library semantics directly.
-/

open scoped Classical

/-- Exceptions that can surface from the pipeline.  `valueError` models Python
`ValueError` (raised by numpy/scipy: `np.max` on an empty array, `find_peaks`
with `distance < 1`, `butter` with critical frequencies outside (0, 1),
`filtfilt` on a too-short input, broadcasting failures).  `zeroDivisionError`
models Python `ZeroDivisionError` (from `1/sampling_rate` in `__init__`).
`invalidSignalError`, `filterDesignError` and `noPeaksFoundError` are the
exception classes named by the specification's error taxonomy; the source code
never defines or raises them — they are present only so that claims about them
can be stated. -/
inductive TCAError where
  | valueError
  | zeroDivisionError
  | invalidSignalError
  | filterDesignError
  | noPeaksFoundError
deriving DecidableEq

/-- Model of a digital Butterworth bandpass filter designed by
`scipy.signal.butter(order, [low, high], btype='band')`: the design is recorded
by its arguments (filter order and the two critical frequencies normalized by
the Nyquist frequency).  The coefficient arrays `b, a` are functions of exactly
these data, so recording them loses nothing the claims need. -/
structure ButterCoeffs where
  order : ℕ
  low : ℚ
  high : ℚ
deriving DecidableEq

/-- Insertion of `a` into `l` before the first element `b` with `le a b`. -/
def insertBy {α : Type} (le : α → α → Bool) (a : α) : List α → List α
  | [] => [a]
  | b :: bs => if le a b then a :: b :: bs else b :: insertBy le a bs

/-- Insertion sort with respect to the Boolean relation `le`, placing `le`-smaller
elements first.  Used to model `np.argsort`-based orderings. -/
def sortBy {α : Type} (le : α → α → Bool) : List α → List α
  | [] => []
  | a :: as => insertBy le a (sortBy le as)

theorem insertBy_perm {α : Type} (le : α → α → Bool) (a : α) :
    ∀ l : List α, (insertBy le a l).Perm (a :: l) := by
  intro l
  induction l with
  | nil => simp [insertBy]
  | cons b bs ih =>
      by_cases h : le a b = true
      · simp [insertBy, h]
      · simp only [insertBy, h]
        simp only [Bool.false_eq_true, if_false]
        exact ((ih.cons b).trans (List.Perm.swap a b bs))

theorem sortBy_perm {α : Type} (le : α → α → Bool) :
    ∀ l : List α, (sortBy le l).Perm l := by
  intro l
  induction l with
  | nil => simp [sortBy]
  | cons a as ih =>
      exact (insertBy_perm le a (sortBy le as)).trans (ih.cons a)

theorem mem_sortBy {α : Type} {le : α → α → Bool} {a : α} {l : List α} :
    a ∈ sortBy le l ↔ a ∈ l :=
  (sortBy_perm le l).mem_iff

theorem mem_insertBy {α : Type} {le : α → α → Bool} {x a : α} {l : List α} :
    x ∈ insertBy le a l ↔ x = a ∨ x ∈ l := by
  rw [(insertBy_perm le a l).mem_iff]
  simp

theorem insertBy_pairwise {α : Type} {le : α → α → Bool}
    (htot : ∀ a b, le a b = true ∨ le b a = true)
    (htrans : ∀ a b c, le a b = true → le b c = true → le a c = true)
    (a : α) :
    ∀ {l : List α}, l.Pairwise (fun x y => le x y = true) →
      (insertBy le a l).Pairwise (fun x y => le x y = true) := by
  intro l
  induction l with
  | nil => intro _; simp [insertBy]
  | cons b bs ih =>
      intro hp
      rcases List.pairwise_cons.mp hp with ⟨hb, hbs⟩
      by_cases h : le a b = true
      · simp only [insertBy, h, if_true]
        refine List.pairwise_cons.mpr ⟨?_, hp⟩
        intro x hx
        rcases List.mem_cons.mp hx with rfl | hx
        · exact h
        · exact htrans a b x h (hb x hx)
      · simp only [insertBy, h, Bool.false_eq_true, if_false]
        refine List.pairwise_cons.mpr ⟨?_, ih hbs⟩
        intro x hx
        rcases mem_insertBy.mp hx with hxa | hx
        · rw [hxa]
          rcases htot a b with h' | h'
          · exact absurd h' h
          · exact h'
        · exact hb x hx

theorem sortBy_pairwise {α : Type} {le : α → α → Bool}
    (htot : ∀ a b, le a b = true ∨ le b a = true)
    (htrans : ∀ a b c, le a b = true → le b c = true → le a c = true) :
    ∀ l : List α, (sortBy le l).Pairwise (fun x y => le x y = true) := by
  intro l
  induction l with
  | nil => simp [sortBy]
  | cons a as ih => exact insertBy_pairwise htot htrans a ih

/-- Lookup in an association list keyed by exact rational frequencies; models
indexing a Python dict whose keys are the detected frequencies. -/
def lookupQ {α : Type} (f : ℚ) : List (ℚ × α) → Option α
  | [] => none
  | (g, c) :: rest => if g = f then some c else lookupQ f rest

/-- Minimum key of an association list; models `min(components.keys())`
(`None` on an empty dict, where Python's `min` raises `ValueError`). -/
def minKey? {α : Type} : List (ℚ × α) → Option ℚ
  | [] => none
  | (f, _) :: rest =>
      some (match minKey? rest with
            | none => f
            | some m => min f m)

theorem minKey?_le {α : Type} :
    ∀ {l : List (ℚ × α)} {ref : ℚ}, minKey? l = some ref →
      ∀ g c, (g, c) ∈ l → ref ≤ g := by
  intro l
  induction l with
  | nil => intro ref h; simp [minKey?] at h
  | cons p rest ih =>
      intro ref h g c hm
      obtain ⟨f, cf⟩ := p
      simp only [minKey?, Option.some.injEq] at h
      rcases List.mem_cons.mp hm with hh | ht
      · obtain ⟨h1, h2⟩ := Prod.mk.inj hh
        rw [h1]
        cases hr : minKey? rest with
        | none => rw [hr] at h; simp at h; rw [← h]
        | some m => rw [hr] at h; simp at h; rw [← h]; exact min_le_left f m
      · cases hr : minKey? rest with
        | none =>
            cases rest with
            | nil => simp at ht
            | cons q qs => simp [minKey?] at hr
        | some m =>
            rw [hr] at h; simp at h
            calc ref = min f m := by rw [h]
              _ ≤ m := min_le_right f m
              _ ≤ g := ih hr g c ht

theorem minKey?_mem {α : Type} :
    ∀ {l : List (ℚ × α)} {ref : ℚ}, minKey? l = some ref →
      ∃ c, (ref, c) ∈ l := by
  intro l
  induction l with
  | nil => intro ref h; simp [minKey?] at h
  | cons p rest ih =>
      intro ref h
      obtain ⟨f, cf⟩ := p
      simp only [minKey?, Option.some.injEq] at h
      cases hr : minKey? rest with
      | none =>
          rw [hr] at h; simp at h
          exact ⟨cf, by rw [← h]; exact List.mem_cons_self _ _⟩
      | some m =>
          rw [hr] at h; simp at h
          rcases le_total f m with hfm | hmf
          · refine ⟨cf, ?_⟩
            have : ref = f := by rw [← h, min_eq_left hfm]
            rw [this]; exact List.mem_cons_self _ _
          · have : ref = m := by rw [← h, min_eq_right hmf]
            obtain ⟨c, hc⟩ := ih hr
            exact ⟨c, by rw [this]; exact List.mem_cons_of_mem _ hc⟩

/-- Discrete Fourier transform coefficient `k` of a real signal, as computed by
`scipy.fft.fft`: `X_k = sum_j x_j * exp(-2*pi*I*k*j/n)`. -/
noncomputable def dftC (x : List ℝ) (k : ℕ) : ℂ :=
  ∑ j in Finset.range x.length,
    ((x.getD j 0 : ℝ) : ℂ) *
      Complex.exp (-(((2 * Real.pi * k * j / x.length : ℝ) : ℂ) * Complex.I))

/-- Magnitude spectrum computed by `find_dominant_frequencies`:
`2.0/n * np.abs(yf[:n//2])`, i.e. the first `n / 2` (non-negative-frequency)
bins of the scaled absolute DFT. -/
noncomputable def magnitudeSpectrum (signal : List ℝ) : List ℝ :=
  (List.range (signal.length / 2)).map
    (fun k => 2 / (signal.length : ℝ) * Complex.abs (dftC signal k))

/-- Maximum of a list of reals; models `np.max` on a nonempty array (the empty
case, where numpy raises `ValueError`, is handled at each call site and never
reaches this default). -/
noncomputable def npMax : List ℝ → ℝ
  | [] => 0
  | x :: xs => xs.foldl max x

/-- Position `m` is a peak of `x` in the sense of scipy's `_local_maxima_1d`:
`m` is the midpoint `(l + r) / 2` of a maximal plateau `x[l] = ... = x[r]` whose
left neighbour `x[l-1]` and right neighbour `x[r+1]` are both strictly smaller.
scipy's left-to-right scan emits exactly these midpoints, in increasing order;
edges of the array never qualify. -/
def isPeakMid (x : List ℝ) (m : ℕ) : Prop :=
  ∃ l ∈ Finset.range x.length, ∃ r ∈ Finset.range x.length,
    0 < l ∧ l ≤ r ∧ r + 1 < x.length ∧
    x.getD (l - 1) 0 < x.getD l 0 ∧ x.getD (r + 1) 0 < x.getD r 0 ∧
    (∀ j ∈ Finset.range x.length, l ≤ j → j ≤ r → x.getD j 0 = x.getD l 0) ∧
    m = (l + r) / 2

/-- Candidate peak positions of the spectrum, in increasing order: the output of
scipy's `_local_maxima_1d`. -/
noncomputable def localMaxima (x : List ℝ) : List ℕ :=
  ((Finset.range x.length).filter (fun m => isPeakMid x m)).sort (· ≤ ·)

/-- Walk outward from a peak over the values `vs` while they stay `≤ xp`,
tracking the minimum; stop at the first strictly larger value or the array
boundary.  This is the inner loop of scipy's `_peak_prominences` on one side. -/
noncomputable def walkMin (xp : ℝ) : List ℝ → ℝ → ℝ
  | [], m => m
  | v :: rest, m => if xp < v then m else walkMin xp rest (min m v)

/-- Prominence of position `p` in `x` as computed by scipy `_peak_prominences`
with unrestricted window: the peak height minus the larger of the two minima
found by walking left and right until a strictly higher sample or the boundary. -/
noncomputable def prominence (x : List ℝ) (p : ℕ) : ℝ :=
  x.getD p 0 -
    max (walkMin (x.getD p 0) ((x.take p).reverse) (x.getD p 0))
        (walkMin (x.getD p 0) (x.drop (p + 1)) (x.getD p 0))

/-- Height filter of `find_peaks`: keep peaks whose spectrum value is at least
`height = 0.05 * np.max(ms)` (scipy keeps `height <= x[peak]`). -/
noncomputable def heightKeep (ms : List ℝ) (peaks : List ℕ) : List ℕ :=
  peaks.filter (fun p => decide ((0.05 : ℝ) * npMax ms ≤ ms.getD p 0))

/-- Prominence filter of `find_peaks`: keep peaks whose prominence is at least
`prominence = 0.05 * np.max(ms)`. -/
noncomputable def promKeep (ms : List ℝ) (peaks : List ℕ) : List ℕ :=
  peaks.filter (fun p => decide ((0.05 : ℝ) * npMax ms ≤ prominence ms p))

/-- One step of scipy's `_select_by_peak_distance`: if position `j` (an index
into `peaks`) is still kept, discard every other position whose peak lies
strictly closer than `d` bins to `peaks[j]`. -/
def pruneAt (peaks : List ℕ) (d : ℕ) (keep : ℕ → Bool) (j : ℕ) : ℕ → Bool :=
  if keep j then
    fun k =>
      if k = j then keep k
      else if Nat.dist (peaks.getD k 0) (peaks.getD j 0) < d then false
      else keep k
  else keep

/-- Processing order of `_select_by_peak_distance`: positions of `peaks` from
highest to lowest priority (priority = spectrum value at the peak, i.e.
`x[peaks]`); scipy iterates `np.argsort(priority)` from the back.  `np.argsort`
leaves the order of equal keys unspecified; the model resolves ties towards the
larger position, which fixes one of the admissible library behaviours. -/
noncomputable def distOrder (ms : List ℝ) (peaks : List ℕ) : List ℕ :=
  sortBy (fun i j => decide (ms.getD (peaks.getD j 0) 0 < ms.getD (peaks.getD i 0) 0 ∨
            (ms.getD (peaks.getD i 0) 0 = ms.getD (peaks.getD j 0) 0 ∧ j ≤ i)))
    (List.range peaks.length)

/-- scipy `_select_by_peak_distance`: process positions from tallest to
smallest; each survivor removes all other peaks within `d - 1` bins; return the
surviving peaks in their original (increasing) order. -/
noncomputable def selectByDistance (ms : List ℝ) (d : ℕ) (peaks : List ℕ) : List ℕ :=
  ((List.range peaks.length).filter
      (fun j => (distOrder ms peaks).foldl (pruneAt peaks d) (fun _ => true) j)).map
    (fun j => peaks.getD j 0)

/-- Comparison used to model `np.argsort(properties['prominences'])[::-1]`:
peak `a` comes before peak `b` when its prominence is larger (ties resolved
towards the larger index — `np.argsort` leaves ties unspecified). -/
noncomputable def promLe (ms : List ℝ) (a b : ℕ) : Bool :=
  decide (prominence ms b < prominence ms a ∨
    (prominence ms a = prominence ms b ∧ b ≤ a))

/-- Peak selection of `find_dominant_frequencies` after the spectrum is known:
local maxima, height filter, distance filter, prominence filter (the order in
which `scipy.signal.find_peaks` evaluates its conditions), then the caller's
sort by descending prominence. -/
noncomputable def peakSelect (ms : List ℝ) (d : ℕ) : List ℕ :=
  sortBy (promLe ms) (promKeep ms (selectByDistance ms d (heightKeep ms (localMaxima ms))))

/-- `find_dominant_frequencies(signal, time)` of `TimeCrystalAnalyzer`
(the `time` argument is unused by the source).  Errors, in the evaluation order
of the Python code: `scipy.fft.fft` on an empty array raises `ValueError`;
`np.max` of an empty magnitude spectrum (signal of length 1) raises
`ValueError`; `find_peaks` raises `ValueError` when `distance = int(n/100)` is
less than 1.  Otherwise returns the top (at most) 5 peaks sorted by descending
prominence, as pairs of frequency `k * rate / n` (from `fftfreq(n, 1/rate)`)
and spectrum magnitude. -/
noncomputable def find_dominant_frequencies (rate : ℚ) (signal : List ℝ) :
    Except TCAError (List ℚ × List ℝ) :=
  if signal.length = 0 then .error .valueError
  else if magnitudeSpectrum signal = [] then .error .valueError
  else if signal.length / 100 < 1 then .error .valueError
  else .ok
    (((peakSelect (magnitudeSpectrum signal) (signal.length / 100)).take 5).map
        (fun p : ℕ => (p : ℚ) * rate / (signal.length : ℚ)),
     ((peakSelect (magnitudeSpectrum signal) (signal.length / 100)).take 5).map
        (fun p => (magnitudeSpectrum signal).getD p 0))

/-- `butter_bandpass(lowcut, highcut, order)` of `TimeCrystalAnalyzer`:
normalizes the cutoffs by `nyq = 0.5 * sampling_rate` and calls
`scipy.signal.butter(order, [low, high], btype='band')`.  The method itself
performs no validation; the `ValueError` modelled here is raised inside
`scipy.signal.iirfilter`, which rejects digital critical frequencies outside
the open interval (0, 1) ("Digital filter critical frequencies must be
0 < Wn < 1"). -/
def butter_bandpass (sampling_rate lowcut highcut : ℚ) (order : ℕ) :
    Except TCAError ButterCoeffs :=
  if 0 < lowcut / (0.5 * sampling_rate) ∧ lowcut / (0.5 * sampling_rate) < 1 ∧
     0 < highcut / (0.5 * sampling_rate) ∧ highcut / (0.5 * sampling_rate) < 1 then
    .ok ⟨order, lowcut / (0.5 * sampling_rate), highcut / (0.5 * sampling_rate)⟩
  else .error .valueError

/-- `extract_components(signal, frequencies)`: for each frequency, bandwidth
`max(0.5, 0.2*freq)`, passband `[freq - bandwidth/2, freq + bandwidth/2]`,
filter design by `butter_bandpass` (order 5), then
`filtered = filtfilt(b, a, signal)`.  `filtfilt` raises `ValueError` when the
input is not longer than its default pad length `3 * max(len(a), len(b))`
(= `3 * (2*order + 1)` for a bandpass design); otherwise it returns an array of
the same shape, whose samples are given by the interpretation `sem` of the
filter arithmetic.  Any exception aborts the whole loop, as in Python. -/
def extract_components (sem : ButterCoeffs → List ℝ → List ℝ)
    (sampling_rate : ℚ) (signal : List ℝ) :
    List ℚ → Except TCAError (List (ℚ × List ℝ))
  | [] => .ok []
  | freq :: rest =>
    match butter_bandpass sampling_rate (freq - max 0.5 (freq * 0.2) / 2)
        (freq + max 0.5 (freq * 0.2) / 2) 5 with
    | .error e => .error e
    | .ok coeffs =>
      if signal.length ≤ 3 * (2 * coeffs.order + 1) then .error .valueError
      else
        match extract_components sem sampling_rate signal rest with
        | .error e => .error e
        | .ok comps => .ok ((freq, sem coeffs signal) :: comps)

/-- Weights applied to the DFT by `scipy.signal.hilbert` to form the analytic
signal: `h[0] = 1`; for even `n` also `h[n/2] = 1` and `h[k] = 2` for
`0 < k < n/2`; for odd `n`, `h[k] = 2` for `0 < k < (n+1)/2`; all other
weights are 0. -/
def hilbertCoef (n k : ℕ) : ℝ :=
  if k = 0 then 1
  else if n % 2 = 0 then
    (if k < n / 2 then 2 else if k = n / 2 then 1 else 0)
  else if k < (n + 1) / 2 then 2 else 0

/-- `scipy.signal.hilbert(x)`: the analytic signal, computed as the inverse DFT
of the weighted DFT, `(1/n) * sum_k h_k * X_k * exp(2*pi*I*k*i/n)` at each
sample `i`.  (scipy rejects an empty input; in the pipeline the argument always
has the length of the analyzed signal, which is at least 100, so that branch is
unreachable and the model simply returns an empty list.) -/
noncomputable def hilbertList (x : List ℝ) : List ℂ :=
  (List.range x.length).map (fun i : ℕ =>
    ((x.length : ℂ))⁻¹ *
      ∑ k in Finset.range x.length,
        ((hilbertCoef x.length k : ℝ) : ℂ) * dftC x k *
          Complex.exp (((2 * Real.pi * k * i / x.length : ℝ) : ℂ) * Complex.I))

/-- One difference of `np.unwrap` (period `2*pi`, `discont = pi`):
`ddmod = mod(dd + pi, 2*pi) - pi`, with the boundary case
`ddmod = -pi and dd > 0` mapped to `pi`. -/
noncomputable def wrapDiff (d : ℝ) : ℝ :=
  if (d + Real.pi) - 2 * Real.pi * ⌊(d + Real.pi) / (2 * Real.pi)⌋ - Real.pi = -Real.pi
      ∧ 0 < d then Real.pi
  else (d + Real.pi) - 2 * Real.pi * ⌊(d + Real.pi) / (2 * Real.pi)⌋ - Real.pi

/-- Phase correction contributed by one step of `np.unwrap`: zero where the
jump is smaller than the discontinuity threshold `pi`, else the wrapped jump
minus the actual jump. -/
noncomputable def phCorrect (d : ℝ) : ℝ :=
  if |d| < Real.pi then 0 else wrapDiff d - d

/-- Tail recursion of `np.unwrap`: `prev` is the previous raw phase sample and
`acc` the accumulated correction (`cumsum(ph_correct)`). -/
noncomputable def unwrapAux (prev acc : ℝ) : List ℝ → List ℝ
  | [] => []
  | v :: rest =>
      (v + (acc + phCorrect (v - prev))) :: unwrapAux v (acc + phCorrect (v - prev)) rest

/-- `np.unwrap` with default period `2*pi`: the first sample is unchanged and
each later sample receives the accumulated correction. -/
noncomputable def unwrap : List ℝ → List ℝ
  | [] => []
  | x :: xs => x :: unwrapAux x 0 xs

/-- Unwrapped instantaneous phase of a component:
`np.unwrap(np.angle(hilbert(component)))`. `np.angle` is `atan2(im, re)`,
which is `Complex.arg`. -/
noncomputable def instPhase (c : List ℝ) : List ℝ :=
  unwrap ((hilbertList c).map Complex.arg)

/-- Real modulo with the sign convention of numpy's `%` (`np.mod`):
`rmod x y = x - y * floor(x / y)`, which lies in `[0, y)` for `y > 0`. -/
noncomputable def rmod (x y : ℝ) : ℝ := x - y * ⌊x / y⌋

/-- Loop body of `analyze_phases`: walk the components dict in insertion order,
skip the reference frequency, and record
`(phase - ref_phase) % (2*pi)` for every other frequency.  numpy raises
`ValueError` when `phase - ref_phase` is attempted on arrays of different
lengths (no broadcast); in the pipeline all components share the signal's
length, so that branch is unreachable. -/
noncomputable def phaseLoop (ref : ℚ) (refPhase : List ℝ) :
    List (ℚ × List ℝ) → Except TCAError (List (ℚ × List ℝ))
  | [] => .ok []
  | (f, c) :: rest =>
    if f = ref then phaseLoop ref refPhase rest
    else if (instPhase c).length = refPhase.length then
      match phaseLoop ref refPhase rest with
      | .error e => .error e
      | .ok tail =>
          .ok ((f, List.zipWith (fun a b => rmod (a - b) (2 * Real.pi))
                  (instPhase c) refPhase) :: tail)
    else .error .valueError

/-- `analyze_phases(components)`: reference frequency
`min(components.keys())` (Python's `min` raises `ValueError` on an empty
dict), reference phase from the Hilbert transform of the reference component,
then the relative wrapped phases of all other components. -/
noncomputable def analyze_phases (components : List (ℚ × List ℝ)) :
    Except TCAError (List (ℚ × List ℝ)) :=
  match minKey? components with
  | none => .error .valueError
  | some ref => phaseLoop ref (instPhase ((lookupQ ref components).getD [])) components

/-- `TimeCrystalAnalyzer.__init__(sampling_rate)`: stores the rate and computes
`dt = 1/sampling_rate`, which raises `ZeroDivisionError` for rate 0 and
succeeds (without any validation) for every other rate, negative ones
included. -/
def mkAnalyzer (sampling_rate : ℚ) : Except TCAError ℚ :=
  if sampling_rate = 0 then .error .zeroDivisionError else .ok sampling_rate

/-- Aggregate result of `analyze_signal`. -/
structure AnalysisResult where
  frequencies : List ℚ
  magnitudes : List ℝ
  components : List (ℚ × List ℝ)
  phases : List (ℚ × List ℝ)

/-- `analyze_signal(signal, time)`: find dominant frequencies, print them
(the second print evaluates `magnitudes / np.max(magnitudes)`, and `np.max`
raises `ValueError` on an empty array), extract components, analyze phases,
assemble the result.  Errors propagate; there is no handling. -/
noncomputable def analyze_signal (sem : ButterCoeffs → List ℝ → List ℝ)
    (sampling_rate : ℚ) (signal : List ℝ) : Except TCAError AnalysisResult :=
  match find_dominant_frequencies sampling_rate signal with
  | .error e => .error e
  | .ok (freqs, mags) =>
    match mags with
    | [] => .error .valueError
    | _ :: _ =>
      match extract_components sem sampling_rate signal freqs with
      | .error e => .error e
      | .ok comps =>
        match analyze_phases comps with
        | .error e => .error e
        | .ok phases => .ok ⟨freqs, mags, comps, phases⟩

theorem getD_replicate_zero (n j : ℕ) : (List.replicate n (0 : ℝ)).getD j 0 = 0 := by
  induction n generalizing j with
  | zero => simp [List.getD]
  | succ m ih =>
      cases j with
      | zero => simp [List.replicate_succ, List.getD]
      | succ i => simp only [List.replicate_succ, List.getD_cons_succ]; exact ih i

theorem dftC_replicate_zero (n k : ℕ) : dftC (List.replicate n (0 : ℝ)) k = 0 := by
  simp [dftC, getD_replicate_zero]

theorem magnitudeSpectrum_replicate_zero (n : ℕ) :
    magnitudeSpectrum (List.replicate n (0 : ℝ)) = List.replicate (n / 2) 0 := by
  rw [List.eq_replicate_iff]
  constructor
  · simp [magnitudeSpectrum]
  · intro b hb
    simp only [magnitudeSpectrum, List.mem_map, List.length_replicate] at hb
    obtain ⟨k, _, hk⟩ := hb
    rw [← hk, dftC_replicate_zero]
    simp

theorem isPeakMid_replicate_zero (n m : ℕ) :
    ¬ isPeakMid (List.replicate n (0 : ℝ)) m := by
  rintro ⟨l, _, r, _, _, _, _, hlt, _⟩
  rw [getD_replicate_zero, getD_replicate_zero] at hlt
  exact lt_irrefl 0 hlt

theorem localMaxima_replicate_zero (n : ℕ) :
    localMaxima (List.replicate n (0 : ℝ)) = [] := by
  unfold localMaxima
  rw [Finset.filter_false_of_mem, Finset.sort_empty]
  intro m _
  exact isPeakMid_replicate_zero n m

theorem selectByDistance_nil (ms : List ℝ) (d : ℕ) :
    selectByDistance ms d [] = [] := by
  simp [selectByDistance]

theorem peakSelect_replicate_zero (m d : ℕ) :
    peakSelect (List.replicate m (0 : ℝ)) d = [] := by
  unfold peakSelect
  rw [localMaxima_replicate_zero]
  rw [show heightKeep (List.replicate m (0:ℝ)) [] = [] from rfl]
  rw [selectByDistance_nil]
  rfl

theorem find_dominant_replicate_zero (rate : ℚ) (n : ℕ) (hn : 100 ≤ n) :
    find_dominant_frequencies rate (List.replicate n (0 : ℝ)) = .ok ([], []) := by
  unfold find_dominant_frequencies
  rw [List.length_replicate, magnitudeSpectrum_replicate_zero]
  rw [if_neg (by omega), if_neg, if_neg]
  · rw [peakSelect_replicate_zero]
    rfl
  · intro hcon
    have : n / 100 = 0 := Nat.lt_one_iff.mp hcon
    omega
  · intro hcon
    have : n / 2 = 0 := (List.replicate_eq_nil_iff (0 : ℝ)).mp hcon
    omega

theorem find_dominant_short (rate : ℚ) (signal : List ℝ)
    (h : signal.length < 100) :
    find_dominant_frequencies rate signal = .error .valueError := by
  unfold find_dominant_frequencies
  split_ifs with h1 h2 h3
  · rfl
  · rfl
  · rfl
  · exact absurd (by rw [Nat.div_eq_of_lt h]; omega) h3

theorem analyze_signal_short (sem : ButterCoeffs → List ℝ → List ℝ) (rate : ℚ)
    (signal : List ℝ) (h : signal.length < 100) :
    analyze_signal sem rate signal = .error .valueError := by
  unfold analyze_signal
  rw [find_dominant_short rate signal h]

theorem find_dominant_ok {rate : ℚ} {signal : List ℝ} {freqs : List ℚ} {mags : List ℝ}
    (h : find_dominant_frequencies rate signal = .ok (freqs, mags)) :
    freqs = ((peakSelect (magnitudeSpectrum signal) (signal.length / 100)).take 5).map
        (fun p : ℕ => (p : ℚ) * rate / (signal.length : ℚ)) ∧
    mags = ((peakSelect (magnitudeSpectrum signal) (signal.length / 100)).take 5).map
        (fun p => (magnitudeSpectrum signal).getD p 0) := by
  unfold find_dominant_frequencies at h
  split_ifs at h
  all_goals
    first
      | exact Except.noConfusion h
      | (simp only [Except.ok.injEq, Prod.mk.injEq] at h
         exact ⟨h.1.symm, h.2.symm⟩)

theorem pruneAt_true (peaks : List ℕ) (d : ℕ) (keep : ℕ → Bool) (j k : ℕ)
    (h : pruneAt peaks d keep j k = true) : keep k = true := by
  unfold pruneAt at h
  by_cases hj : keep j = true
  · rw [if_pos hj] at h
    by_cases h1 : k = j
    · rwa [if_pos h1] at h
    · rw [if_neg h1] at h
      by_cases h2 : Nat.dist (peaks.getD k 0) (peaks.getD j 0) < d
      · rw [if_pos h2] at h; cases h
      · rwa [if_neg h2] at h
  · rwa [if_neg hj] at h

theorem pruneAt_removes (peaks : List ℕ) (d : ℕ) (keep : ℕ → Bool) (j k : ℕ)
    (hkeepj : keep j = true) (hne : k ≠ j)
    (hd : Nat.dist (peaks.getD k 0) (peaks.getD j 0) < d) :
    pruneAt peaks d keep j k = false := by
  unfold pruneAt
  rw [if_pos hkeepj]
  simp only [if_neg hne, if_pos hd]

theorem foldl_pruneAt_true (peaks : List ℕ) (d : ℕ) :
    ∀ (os : List ℕ) (keep : ℕ → Bool) (k : ℕ),
      (os.foldl (pruneAt peaks d) keep) k = true → keep k = true := by
  intro os
  induction os with
  | nil => intro keep k h; exact h
  | cons j os ih =>
      intro keep k h
      exact pruneAt_true peaks d keep j k (ih (pruneAt peaks d keep j) k h)

theorem finalKeep_dist (ms : List ℝ) (peaks : List ℕ) (d : ℕ) (j j' : ℕ)
    (hj : j < peaks.length) (hne : j' ≠ j)
    (h1 : (distOrder ms peaks).foldl (pruneAt peaks d) (fun _ => true) j = true)
    (h2 : (distOrder ms peaks).foldl (pruneAt peaks d) (fun _ => true) j' = true) :
    d ≤ Nat.dist (peaks.getD j' 0) (peaks.getD j 0) := by
  by_contra hlt
  push_neg at hlt
  have hmem : j ∈ distOrder ms peaks := by
    unfold distOrder
    rw [mem_sortBy]
    exact List.mem_range.mpr hj
  obtain ⟨u, v, huv⟩ := List.append_of_mem hmem
  rw [huv, List.foldl_append, List.foldl_cons] at h1 h2
  have hK1j : pruneAt peaks d (u.foldl (pruneAt peaks d) (fun _ => true)) j j = true :=
    foldl_pruneAt_true peaks d v _ j h1
  have hK0j : (u.foldl (pruneAt peaks d) (fun _ => true)) j = true :=
    pruneAt_true peaks d _ j j hK1j
  have hK1j' : pruneAt peaks d (u.foldl (pruneAt peaks d) (fun _ => true)) j j' = true :=
    foldl_pruneAt_true peaks d v _ j' h2
  have hfalse := pruneAt_removes peaks d (u.foldl (pruneAt peaks d) (fun _ => true)) j j'
    hK0j hne hlt
  rw [hfalse] at hK1j'
  exact Bool.noConfusion hK1j'

theorem selectByDistance_subset {ms : List ℝ} {d : ℕ} {peaks : List ℕ} {p : ℕ}
    (h : p ∈ selectByDistance ms d peaks) : p ∈ peaks := by
  unfold selectByDistance at h
  obtain ⟨j, hj, hjp⟩ := List.mem_map.mp h
  have hjr := List.mem_range.mp (List.mem_filter.mp hj).1
  rw [← hjp, List.getD_eq_getElem _ _ hjr]
  exact List.getElem_mem hjr

theorem selectByDistance_pairwise (ms : List ℝ) (d : ℕ) (peaks : List ℕ) :
    (selectByDistance ms d peaks).Pairwise (fun a b => d ≤ Nat.dist a b) := by
  unfold selectByDistance
  rw [List.pairwise_map]
  have hp : (List.range peaks.length).Pairwise (· < ·) := List.pairwise_lt_range _
  have hf := hp.filter
    (fun j => (distOrder ms peaks).foldl (pruneAt peaks d) (fun _ => true) j)
  refine hf.imp_of_mem ?_
  intro a b ha hb hab
  have hka := (List.mem_filter.mp ha).2
  have hkb := (List.mem_filter.mp hb).2
  have har := List.mem_range.mp (List.mem_filter.mp ha).1
  have hd := finalKeep_dist ms peaks d a b har (Nat.ne_of_gt hab) hka hkb
  rwa [Nat.dist_comm] at hd

theorem peakSelect_mem {ms : List ℝ} {d : ℕ} {p : ℕ} (h : p ∈ peakSelect ms d) :
    p ∈ localMaxima ms ∧ (0.05 : ℝ) * npMax ms ≤ ms.getD p 0 ∧
      (0.05 : ℝ) * npMax ms ≤ prominence ms p := by
  unfold peakSelect at h
  rw [mem_sortBy] at h
  unfold promKeep at h
  obtain ⟨hsel, hprom⟩ := List.mem_filter.mp h
  have hsub := selectByDistance_subset hsel
  unfold heightKeep at hsub
  obtain ⟨hlm, hheight⟩ := List.mem_filter.mp hsub
  exact ⟨hlm, of_decide_eq_true hheight, of_decide_eq_true hprom⟩

theorem peakSelect_pairwise_dist (ms : List ℝ) (d : ℕ) :
    (peakSelect ms d).Pairwise (fun a b => d ≤ Nat.dist a b) := by
  unfold peakSelect
  have h1 := selectByDistance_pairwise ms d (heightKeep ms (localMaxima ms))
  have h2 : (promKeep ms (selectByDistance ms d (heightKeep ms (localMaxima ms)))).Pairwise
      (fun a b => d ≤ Nat.dist a b) := by
    unfold promKeep
    exact h1.filter _
  exact ((sortBy_perm _ _).pairwise_iff
    (fun {x y} hxy => by rwa [Nat.dist_comm])).mpr h2

theorem promLe_total (ms : List ℝ) :
    ∀ a b, promLe ms a b = true ∨ promLe ms b a = true := by
  intro a b
  unfold promLe
  rcases lt_trichotomy (prominence ms a) (prominence ms b) with h | h | h
  · right; exact decide_eq_true (Or.inl h)
  · rcases le_total b a with hba | hab
    · left; exact decide_eq_true (Or.inr ⟨h, hba⟩)
    · right; exact decide_eq_true (Or.inr ⟨h.symm, hab⟩)
  · left; exact decide_eq_true (Or.inl h)

theorem promLe_trans (ms : List ℝ) :
    ∀ a b c, promLe ms a b = true → promLe ms b c = true → promLe ms a c = true := by
  intro a b c hab hbc
  unfold promLe at *
  rcases of_decide_eq_true hab with h1 | ⟨h1, h1'⟩ <;>
    rcases of_decide_eq_true hbc with h2 | ⟨h2, h2'⟩
  · exact decide_eq_true (Or.inl (h2.trans h1))
  · exact decide_eq_true (Or.inl (h2 ▸ h1))
  · exact decide_eq_true (Or.inl (h1 ▸ h2))
  · exact decide_eq_true (Or.inr ⟨h1.trans h2, h2'.trans h1'⟩)

theorem peakSelect_prom_sorted (ms : List ℝ) (d : ℕ) :
    (peakSelect ms d).Pairwise (fun a b => prominence ms b ≤ prominence ms a) := by
  unfold peakSelect
  have hs := sortBy_pairwise (promLe_total ms) (promLe_trans ms)
    (promKeep ms (selectByDistance ms d (heightKeep ms (localMaxima ms))))
  refine hs.imp ?_
  intro a b h
  rcases of_decide_eq_true h with h' | ⟨h', _⟩
  · exact le_of_lt h'
  · exact le_of_eq h'.symm

theorem unwrapAux_length : ∀ (l : List ℝ) (prev acc : ℝ),
    (unwrapAux prev acc l).length = l.length := by
  intro l
  induction l with
  | nil => intro prev acc; rfl
  | cons v rest ih =>
      intro prev acc
      simp only [unwrapAux, List.length_cons, ih]

theorem unwrap_length (l : List ℝ) : (unwrap l).length = l.length := by
  cases l with
  | nil => rfl
  | cons x xs => simp only [unwrap, List.length_cons, unwrapAux_length]

theorem hilbertList_length (x : List ℝ) : (hilbertList x).length = x.length := by
  unfold hilbertList
  rw [List.length_map, List.length_range]

theorem instPhase_length (c : List ℝ) : (instPhase c).length = c.length := by
  unfold instPhase
  rw [unwrap_length, List.length_map, hilbertList_length]

theorem mem_zipWith_exists {α β γ : Type} {f : α → β → γ} :
    ∀ {l1 : List α} {l2 : List β} {v : γ}, v ∈ List.zipWith f l1 l2 →
      ∃ a b, a ∈ l1 ∧ b ∈ l2 ∧ v = f a b := by
  intro l1
  induction l1 with
  | nil => intro l2 v h; simp at h
  | cons a as ih =>
      intro l2 v h
      cases l2 with
      | nil => simp at h
      | cons b bs =>
          rcases List.mem_cons.mp h with hv | hv
          · exact ⟨a, b, List.mem_cons_self a as, List.mem_cons_self b bs, hv⟩
          · obtain ⟨a', b', ha, hb, hv'⟩ := ih hv
            exact ⟨a', b', List.mem_cons_of_mem a ha, List.mem_cons_of_mem b hb, hv'⟩

theorem rmod_nonneg (x y : ℝ) (hy : 0 < y) : 0 ≤ rmod x y := by
  unfold rmod
  have h := Int.floor_le (x / y)
  have h2 : y * ((⌊x / y⌋ : ℤ) : ℝ) ≤ x := by
    rw [mul_comm]
    exact (le_div_iff₀ hy).mp h
  linarith

theorem rmod_lt (x y : ℝ) (hy : 0 < y) : rmod x y < y := by
  unfold rmod
  have h := Int.lt_floor_add_one (x / y)
  have h2 : x < y * (((⌊x / y⌋ : ℤ) : ℝ) + 1) := by
    rw [mul_comm]
    exact (div_lt_iff₀ hy).mp h
  nlinarith

theorem lookupQ_of_nodup {α : Type} :
    ∀ {l : List (ℚ × α)} {f : ℚ} {c : α}, (l.map Prod.fst).Nodup →
      (f, c) ∈ l → lookupQ f l = some c := by
  intro l
  induction l with
  | nil => intro f c _ h; simp at h
  | cons p rest ih =>
      intro f c hnd hm
      obtain ⟨g, c0⟩ := p
      simp only [List.map_cons, List.nodup_cons] at hnd
      rcases List.mem_cons.mp hm with hh | ht
      · obtain ⟨h1, h2⟩ := Prod.mk.inj hh
        unfold lookupQ
        rw [if_pos h1.symm, h2]
      · unfold lookupQ
        by_cases hgf : g = f
        · exfalso
          apply hnd.1
          rw [hgf]
          exact List.mem_map.mpr ⟨(f, c), ht, rfl⟩
        · rw [if_neg hgf]
          exact ih hnd.2 ht

theorem phaseLoop_lookup_ref {ref : ℚ} {refPhase : List ℝ} :
    ∀ {comps phs : List (ℚ × List ℝ)}, phaseLoop ref refPhase comps = .ok phs →
      lookupQ ref phs = none := by
  intro comps
  induction comps with
  | nil =>
      intro phs h
      simp only [phaseLoop, Except.ok.injEq] at h
      rw [← h]
      rfl
  | cons p rest ih =>
      intro phs h
      obtain ⟨f, c⟩ := p
      unfold phaseLoop at h
      by_cases hf : f = ref
      · rw [if_pos hf] at h
        exact ih h
      · rw [if_neg hf] at h
        by_cases hl : (instPhase c).length = refPhase.length
        · rw [if_pos hl] at h
          cases hrec : phaseLoop ref refPhase rest with
          | error e => rw [hrec] at h; exact Except.noConfusion h
          | ok tail =>
              rw [hrec] at h
              simp only [Except.ok.injEq] at h
              rw [← h]
              unfold lookupQ
              rw [if_neg hf]
              exact ih hrec
        · rw [if_neg hl] at h
          exact Except.noConfusion h

theorem phaseLoop_mem {ref : ℚ} {refPhase : List ℝ} :
    ∀ {comps phs : List (ℚ × List ℝ)} {f : ℚ} {c : List ℝ},
      phaseLoop ref refPhase comps = .ok phs → (f, c) ∈ comps → f ≠ ref →
      (f, List.zipWith (fun a b => rmod (a - b) (2 * Real.pi)) (instPhase c) refPhase) ∈ phs := by
  intro comps
  induction comps with
  | nil => intro phs f c _ hm _; simp at hm
  | cons p rest ih =>
      intro phs f c h hm hfr
      obtain ⟨f0, c0⟩ := p
      unfold phaseLoop at h
      by_cases hf : f0 = ref
      · rw [if_pos hf] at h
        rcases List.mem_cons.mp hm with hh | ht
        · obtain ⟨h1, _⟩ := Prod.mk.inj hh
          exact absurd (h1.trans hf) hfr
        · exact ih h ht hfr
      · rw [if_neg hf] at h
        by_cases hl : (instPhase c0).length = refPhase.length
        · rw [if_pos hl] at h
          cases hrec : phaseLoop ref refPhase rest with
          | error e => rw [hrec] at h; exact Except.noConfusion h
          | ok tail =>
              rw [hrec] at h
              simp only [Except.ok.injEq] at h
              rw [← h]
              rcases List.mem_cons.mp hm with hh | ht
              · obtain ⟨h1, h2⟩ := Prod.mk.inj hh
                rw [h1, h2]
                exact List.mem_cons_self _ _
              · exact List.mem_cons_of_mem _ (ih hrec ht hfr)
        · rw [if_neg hl] at h
          exact Except.noConfusion h

theorem phaseLoop_val_length {ref : ℚ} {refPhase : List ℝ} :
    ∀ {comps phs : List (ℚ × List ℝ)} {f : ℚ} {ph : List ℝ},
      phaseLoop ref refPhase comps = .ok phs → (f, ph) ∈ phs →
      ph.length = refPhase.length := by
  intro comps
  induction comps with
  | nil =>
      intro phs f ph h hm
      simp only [phaseLoop, Except.ok.injEq] at h
      rw [← h] at hm
      simp at hm
  | cons p rest ih =>
      intro phs f ph h hm
      obtain ⟨f0, c0⟩ := p
      unfold phaseLoop at h
      by_cases hf : f0 = ref
      · rw [if_pos hf] at h
        exact ih h hm
      · rw [if_neg hf] at h
        by_cases hl : (instPhase c0).length = refPhase.length
        · rw [if_pos hl] at h
          cases hrec : phaseLoop ref refPhase rest with
          | error e => rw [hrec] at h; exact Except.noConfusion h
          | ok tail =>
              rw [hrec] at h
              simp only [Except.ok.injEq] at h
              rw [← h] at hm
              rcases List.mem_cons.mp hm with hh | ht
              · obtain ⟨_, h2⟩ := Prod.mk.inj hh
                rw [h2]
                rw [List.length_zipWith, hl, min_self]
              · exact ih hrec ht
        · rw [if_neg hl] at h
          exact Except.noConfusion h

theorem phaseLoop_comp_length {ref : ℚ} {refPhase : List ℝ} :
    ∀ {comps phs : List (ℚ × List ℝ)} {g : ℚ} {c : List ℝ},
      phaseLoop ref refPhase comps = .ok phs → (g, c) ∈ comps → g ≠ ref →
      (instPhase c).length = refPhase.length := by
  intro comps
  induction comps with
  | nil => intro phs g c _ hm _; simp at hm
  | cons p rest ih =>
      intro phs g c h hm hgr
      obtain ⟨f0, c0⟩ := p
      unfold phaseLoop at h
      by_cases hf : f0 = ref
      · rw [if_pos hf] at h
        rcases List.mem_cons.mp hm with hh | ht
        · obtain ⟨h1, _⟩ := Prod.mk.inj hh
          exact absurd (h1.trans hf) hgr
        · exact ih h ht hgr
      · rw [if_neg hf] at h
        by_cases hl : (instPhase c0).length = refPhase.length
        · rw [if_pos hl] at h
          cases hrec : phaseLoop ref refPhase rest with
          | error e => rw [hrec] at h; exact Except.noConfusion h
          | ok tail =>
              rw [hrec] at h
              rcases List.mem_cons.mp hm with hh | ht
              · obtain ⟨_, h2⟩ := Prod.mk.inj hh
                rw [h2]
                exact hl
              · exact ih hrec ht hgr
        · rw [if_neg hl] at h
          exact Except.noConfusion h

theorem butter_bandpass_ok {rate lo hi : ℚ} {n : ℕ} {co : ButterCoeffs}
    (h : butter_bandpass rate lo hi n = .ok co) :
    co = ⟨n, lo / (0.5 * rate), hi / (0.5 * rate)⟩ ∧
      0 < lo / (0.5 * rate) ∧ lo / (0.5 * rate) < 1 ∧
      0 < hi / (0.5 * rate) ∧ hi / (0.5 * rate) < 1 := by
  unfold butter_bandpass at h
  split_ifs at h with hc
  simp only [Except.ok.injEq] at h
  exact ⟨h.symm, hc⟩

theorem butter_bandpass_error {rate lo hi : ℚ} {n : ℕ} {e : TCAError}
    (h : butter_bandpass rate lo hi n = .error e) : e = .valueError := by
  unfold butter_bandpass at h
  split_ifs at h
  simp only [Except.error.injEq] at h
  exact h.symm

theorem extract_components_lookup {sem : ButterCoeffs → List ℝ → List ℝ}
    {rate : ℚ} {signal : List ℝ} :
    ∀ {freqs : List ℚ} {comps : List (ℚ × List ℝ)},
      extract_components sem rate signal freqs = .ok comps →
      ∀ f ∈ freqs, lookupQ f comps =
        some (sem ⟨5, (f - max 0.5 (f * 0.2) / 2) / (0.5 * rate),
                      (f + max 0.5 (f * 0.2) / 2) / (0.5 * rate)⟩ signal) := by
  intro freqs
  induction freqs with
  | nil => intro comps _ f hf; simp at hf
  | cons g rest ih =>
      intro comps h f hf
      unfold extract_components at h
      cases hb : butter_bandpass rate (g - max 0.5 (g * 0.2) / 2) (g + max 0.5 (g * 0.2) / 2) 5 with
      | error e => rw [hb] at h; exact Except.noConfusion h
      | ok coeffs =>
          rw [hb] at h
          dsimp only at h
          by_cases hlen : signal.length ≤ 3 * (2 * coeffs.order + 1)
          · rw [if_pos hlen] at h; exact Except.noConfusion h
          · rw [if_neg hlen] at h
            cases hrec : extract_components sem rate signal rest with
            | error e => rw [hrec] at h; exact Except.noConfusion h
            | ok comps' =>
                rw [hrec] at h
                simp only [Except.ok.injEq] at h
                obtain ⟨hco, _⟩ := butter_bandpass_ok hb
                rw [← h]
                rcases List.mem_cons.mp hf with rfl | hfrest
                · unfold lookupQ
                  rw [if_pos rfl, hco]
                · unfold lookupQ
                  by_cases hgf : g = f
                  · rw [if_pos hgf, hco, hgf]
                  · rw [if_neg hgf]
                    exact ih hrec f hfrest

theorem extract_components_length {sem : ButterCoeffs → List ℝ → List ℝ}
    {rate : ℚ} {signal : List ℝ}
    (hsem : ∀ co x, (sem co x).length = x.length) :
    ∀ {freqs : List ℚ} {comps : List (ℚ × List ℝ)},
      extract_components sem rate signal freqs = .ok comps →
      ∀ f c, (f, c) ∈ comps → c.length = signal.length := by
  intro freqs
  induction freqs with
  | nil =>
      intro comps h f c hm
      simp only [extract_components, Except.ok.injEq] at h
      rw [← h] at hm
      simp at hm
  | cons g rest ih =>
      intro comps h f c hm
      unfold extract_components at h
      cases hb : butter_bandpass rate (g - max 0.5 (g * 0.2) / 2) (g + max 0.5 (g * 0.2) / 2) 5 with
      | error e => rw [hb] at h; exact Except.noConfusion h
      | ok coeffs =>
          rw [hb] at h
          dsimp only at h
          by_cases hlen : signal.length ≤ 3 * (2 * coeffs.order + 1)
          · rw [if_pos hlen] at h; exact Except.noConfusion h
          · rw [if_neg hlen] at h
            cases hrec : extract_components sem rate signal rest with
            | error e => rw [hrec] at h; exact Except.noConfusion h
            | ok comps' =>
                rw [hrec] at h
                simp only [Except.ok.injEq] at h
                rw [← h] at hm
                rcases List.mem_cons.mp hm with hh | ht
                · obtain ⟨_, h2⟩ := Prod.mk.inj hh
                  rw [h2]
                  exact hsem coeffs signal
                · exact ih hrec f c ht

theorem extract_components_invalid {sem : ButterCoeffs → List ℝ → List ℝ}
    {rate : ℚ} {signal : List ℝ} {f : ℚ} (hrate : 0 < rate) :
    ∀ {freqs : List ℚ}, f ∈ freqs →
      (f - max 0.5 (f * 0.2) / 2 ≤ 0 ∨
       0.5 * rate ≤ f + max 0.5 (f * 0.2) / 2 ∨
       f + max 0.5 (f * 0.2) / 2 ≤ f - max 0.5 (f * 0.2) / 2) →
      extract_components sem rate signal freqs = .error .valueError := by
  intro freqs
  induction freqs with
  | nil => intro hf _; simp at hf
  | cons g rest ih =>
      intro hf hinv
      unfold extract_components
      cases hb : butter_bandpass rate (g - max 0.5 (g * 0.2) / 2) (g + max 0.5 (g * 0.2) / 2) 5 with
      | error e =>
          dsimp only
          rw [butter_bandpass_error hb]
      | ok coeffs =>
          dsimp only
          have hnyq : (0 : ℚ) < 0.5 * rate := by
            have : (0 : ℚ) < 0.5 := by norm_num
            exact mul_pos this hrate
          rcases List.mem_cons.mp hf with rfl | hfrest
          · exfalso
            obtain ⟨_, hlo, hlo1, hhi, hhi1⟩ := butter_bandpass_ok hb
            rcases hinv with h1 | h2 | h3
            · have : 0 < f - max 0.5 (f * 0.2) / 2 := by
                by_contra hc
                push_neg at hc
                have := div_nonpos_of_nonpos_of_nonneg hc (le_of_lt hnyq)
                linarith
              linarith
            · have : 1 ≤ (f + max 0.5 (f * 0.2) / 2) / (0.5 * rate) := by
                rw [le_div_iff₀ hnyq]
                linarith
              linarith
            · have hbw : (0.5 : ℚ) ≤ max 0.5 (f * 0.2) := le_max_left _ _
              linarith
          · by_cases hlen : signal.length ≤ 3 * (2 * coeffs.order + 1)
            · rw [if_pos hlen]
            · rw [if_neg hlen]
              rw [ih hfrest hinv]

theorem extract_single_ten :
    extract_components (fun _ x => x) 1000 (List.replicate 100 (0 : ℝ)) [10] =
      .ok [(10, List.replicate 100 (0 : ℝ))] := by
  have hb : butter_bandpass 1000 (10 - max 0.5 ((10 : ℚ) * 0.2) / 2)
      (10 + max 0.5 ((10 : ℚ) * 0.2) / 2) 5 = .ok ⟨5, 9 / 500, 11 / 500⟩ := by
    unfold butter_bandpass
    rw [if_pos]
    · norm_num
    · norm_num
  unfold extract_components
  rw [hb]
  dsimp only
  rw [if_neg (by simp)]
  rfl

/-- Claim C10: for every signal of length `n < 100`, `find_dominant_frequencies`
passes `distance = int(n/100) = 0` to `find_peaks`, which requires a distance of
at least 1 and raises `ValueError`, so no frequencies are returned and the whole
`analyze_signal` pipeline fails, regardless of the signal's content. -/
theorem C10_short_signal_error (rate : ℚ) (signal : List ℝ)
    (h : signal.length < 100) :
    find_dominant_frequencies rate signal = .error .valueError ∧
    ∀ sem : ButterCoeffs → List ℝ → List ℝ,
      analyze_signal sem rate signal = .error .valueError :=
  ⟨find_dominant_short rate signal h, fun sem => analyze_signal_short sem rate signal h⟩

theorem C10_witness :
    (List.replicate 7 (0 : ℝ)).length < 100 ∧
    (find_dominant_frequencies 1 (List.replicate 7 (0 : ℝ)) = .error .valueError ∧
     ∀ sem : ButterCoeffs → List ℝ → List ℝ,
       analyze_signal sem 1 (List.replicate 7 (0 : ℝ)) = .error .valueError) :=
  ⟨by simp, C10_short_signal_error 1 (List.replicate 7 0) (by simp)⟩

/-- Claim C9: `analyze_signal` is deterministic — the embedding is a pure
function of the signal, the sample rate and the (deterministic) filter
arithmetic, so two calls on the same input yield identical results.  The source
calls only deterministic library routines (`fft`, `find_peaks`, `butter`,
`filtfilt`, `hilbert`, `unwrap`); no random state is consulted. -/
theorem C9_deterministic (sem : ButterCoeffs → List ℝ → List ℝ)
    (rate : ℚ) (signal : List ℝ) :
    analyze_signal sem rate signal = analyze_signal sem rate signal := rfl

/-- Claim C7 (counterexample to the claim as stated): a signal of 5 samples is
far below `2 * filter_order = 10`, yet the analysis fails with `ValueError`
(from the `find_peaks` distance validation), not `InvalidSignalError`; and a
zero sample rate fails at construction with `ZeroDivisionError`, not
`InvalidSignalError`.  The class `InvalidSignalError` does not exist in the
code. -/
theorem C7_counterexample :
    analyze_signal (fun _ x => x) 1000 (List.replicate 5 (0 : ℝ)) = .error .valueError ∧
    TCAError.valueError ≠ TCAError.invalidSignalError ∧
    mkAnalyzer 0 = .error .zeroDivisionError ∧
    TCAError.zeroDivisionError ≠ TCAError.invalidSignalError :=
  ⟨analyze_signal_short (fun _ x => x) 1000 (List.replicate 5 0) (by simp),
   by decide, by simp [mkAnalyzer], by decide⟩

/-- Claim C7 (amended): a too-short signal (any length below 100) makes the
analysis fail with `ValueError` from the peak finder's distance validation; a
sample rate of 0 raises `ZeroDivisionError` in `__init__`; every nonzero sample
rate — negative ones included — is accepted at construction without error.  No
`InvalidSignalError` is ever raised (the class does not exist in the code). -/
theorem C7_short_or_zero_rate (sem : ButterCoeffs → List ℝ → List ℝ)
    (rate : ℚ) (signal : List ℝ) :
    (signal.length < 100 → analyze_signal sem rate signal = .error .valueError) ∧
    mkAnalyzer 0 = .error .zeroDivisionError ∧
    (rate ≠ 0 → mkAnalyzer rate = .ok rate) :=
  ⟨fun h => analyze_signal_short sem rate signal h,
   by simp [mkAnalyzer],
   fun h => by simp [mkAnalyzer, h]⟩

theorem C7_witness :
    ((List.replicate 3 (0 : ℝ)).length < 100 ∧
      analyze_signal (fun _ x => x) 2 (List.replicate 3 (0 : ℝ)) = .error .valueError) ∧
    ((-5 : ℚ) ≠ 0 ∧ mkAnalyzer (-5) = .ok (-5)) :=
  ⟨⟨by simp, (C7_short_or_zero_rate (fun _ x => x) 2 (List.replicate 3 0)).1 (by simp)⟩,
   ⟨by norm_num, (C7_short_or_zero_rate (fun _ x => x) (-5) (List.replicate 3 0)).2.2 (by norm_num)⟩⟩

/-- Claim C2 (counterexample to the claim as stated): for the frequency 0.2 Hz
the 20%-bandwidth rule gives `bandwidth = 0.5` and `lowcut = -0.05 ≤ 0`, an
invalid passband — yet `extract_components` fails with the filter library's
`ValueError` (raised inside `scipy.signal.butter`), not with
`FilterDesignError`; no validation happens before `butter` is invoked, and the
class `FilterDesignError` does not exist in the code. -/
theorem C2_counterexample :
    extract_components (fun _ x => x) 1000 (List.replicate 100 (0 : ℝ))
        [(1 / 5 : ℚ)] = .error .valueError ∧
    TCAError.valueError ≠ TCAError.filterDesignError := by
  have hlow : (1 / 5 : ℚ) - max 0.5 ((1 / 5) * 0.2) / 2 ≤ 0 := by
    rw [show max (0.5 : ℚ) ((1 / 5) * 0.2) = 0.5 from max_eq_left (by norm_num)]
    norm_num
  exact ⟨@extract_components_invalid (fun _ x => x) 1000 (List.replicate 100 (0 : ℝ))
    (1 / 5) (by norm_num) [(1 / 5 : ℚ)] (by simp) (Or.inl hlow), by decide⟩

/-- Claim C2 (amended): for every frequency in the list whose computed passband
is invalid in the claimed sense (`lowcut ≤ 0`, or `highcut ≥ Nyquist`, or
`lowcut ≥ highcut`), `extract_components` fails — but with the library's
`ValueError` (scipy's `butter`/`iirfilter` rejects normalized critical
frequencies outside (0, 1), and an earlier frequency can only fail the same
way), not with a `FilterDesignError`, and without any validation by the
repository code before the design routine is invoked. -/
theorem C2_invalid_passband (sem : ButterCoeffs → List ℝ → List ℝ)
    (rate : ℚ) (signal : List ℝ) (f : ℚ) (freqs : List ℚ)
    (hrate : 0 < rate) (hf : f ∈ freqs)
    (hinv : f - max 0.5 (f * 0.2) / 2 ≤ 0 ∨
            0.5 * rate ≤ f + max 0.5 (f * 0.2) / 2 ∨
            f + max 0.5 (f * 0.2) / 2 ≤ f - max 0.5 (f * 0.2) / 2) :
    extract_components sem rate signal freqs = .error .valueError ∧
    TCAError.valueError ≠ TCAError.filterDesignError :=
  ⟨extract_components_invalid hrate hf hinv, by decide⟩

theorem C2_witness :
    ((0 : ℚ) < 1000) ∧ ((1 / 5 : ℚ) ∈ [(1 / 5 : ℚ)]) ∧
    ((1 / 5 : ℚ) - max 0.5 ((1 / 5) * 0.2) / 2 ≤ 0) ∧
    (extract_components (fun _ x => x) 1000 [] [(1 / 5 : ℚ)] = .error .valueError ∧
     TCAError.valueError ≠ TCAError.filterDesignError) := by
  have hlow : (1 / 5 : ℚ) - max 0.5 ((1 / 5) * 0.2) / 2 ≤ 0 := by
    rw [show max (0.5 : ℚ) ((1 / 5) * 0.2) = 0.5 from max_eq_left (by norm_num)]
    norm_num
  exact ⟨by norm_num, by simp,
    hlow,
    C2_invalid_passband (fun _ x => x) 1000 [] (1 / 5) [(1 / 5 : ℚ)] (by norm_num)
      (by simp) (Or.inl hlow)⟩

/-- Claim C6: for every frequency `f` in the input list of a successful
`extract_components` call, the stored component is the zero-phase
(forward-backward) filtering of the whole input signal by a 5th-order
Butterworth bandpass filter whose passband is
`[f - bandwidth/2, f + bandwidth/2]` with `bandwidth = max(0.5, 0.2*f)`,
normalized by the Nyquist frequency `0.5 * sample_rate`. -/
theorem C6_filter_design (sem : ButterCoeffs → List ℝ → List ℝ)
    (rate : ℚ) (signal : List ℝ) (freqs : List ℚ) (comps : List (ℚ × List ℝ))
    (h : extract_components sem rate signal freqs = .ok comps) :
    ∀ f ∈ freqs, lookupQ f comps =
      some (sem ⟨5, (f - max 0.5 (f * 0.2) / 2) / (0.5 * rate),
                    (f + max 0.5 (f * 0.2) / 2) / (0.5 * rate)⟩ signal) :=
  extract_components_lookup h

theorem C6_witness :
    extract_components (fun _ x => x) 1000 (List.replicate 100 (0 : ℝ)) [10] =
        .ok [(10, List.replicate 100 (0 : ℝ))] ∧
    lookupQ 10 [((10 : ℚ), List.replicate 100 (0 : ℝ))] =
      some ((fun (_ : ButterCoeffs) (x : List ℝ) => x)
        ⟨5, (10 - max 0.5 ((10 : ℚ) * 0.2) / 2) / (0.5 * 1000),
            (10 + max 0.5 ((10 : ℚ) * 0.2) / 2) / (0.5 * 1000)⟩
        (List.replicate 100 (0 : ℝ))) :=
  ⟨extract_single_ten,
   C6_filter_design (fun _ x => x) 1000 (List.replicate 100 0) [10]
     [(10, List.replicate 100 0)] extract_single_ten 10 (by simp)⟩

/-- Claim C8: for every interpretation of the filtfilt arithmetic that returns
an array of the same shape as its input (scipy's documented behaviour), every
component produced by a successful `extract_components` call has exactly the
length of the input signal. -/
theorem C8_component_length (sem : ButterCoeffs → List ℝ → List ℝ)
    (rate : ℚ) (signal : List ℝ) (freqs : List ℚ) (comps : List (ℚ × List ℝ))
    (hsem : ∀ co x, (sem co x).length = x.length)
    (h : extract_components sem rate signal freqs = .ok comps) :
    ∀ f c, (f, c) ∈ comps → c.length = signal.length :=
  extract_components_length hsem h

theorem C8_witness :
    (∀ (co : ButterCoeffs) (x : List ℝ),
        ((fun (_ : ButterCoeffs) (x : List ℝ) => x) co x).length = x.length) ∧
    (∀ (f : ℚ) (c : List ℝ), (f, c) ∈ [((10 : ℚ), List.replicate 100 (0 : ℝ))] →
        c.length = (List.replicate 100 (0 : ℝ)).length) :=
  ⟨fun _ _ => rfl,
   C8_component_length (fun _ x => x) 1000 (List.replicate 100 0) [10]
     [(10, List.replicate 100 0)] (fun _ _ => rfl) extract_single_ten⟩

/-- Claim C1 (counterexample to the claim as stated): the all-zero signal of
100 samples has a flat spectrum with no qualifying peak;
`find_dominant_frequencies` does return empty frequency and magnitude lists
without error, but `analyze_signal` then raises `ValueError` — its print
statement evaluates `np.max(magnitudes)` on an empty array — instead of
completing with empty components and phases. -/
theorem C1_counterexample :
    find_dominant_frequencies 1000 (List.replicate 100 (0 : ℝ)) = .ok ([], []) ∧
    analyze_signal (fun _ x => x) 1000 (List.replicate 100 (0 : ℝ)) =
      .error .valueError := by
  refine ⟨find_dominant_replicate_zero 1000 100 (by norm_num), ?_⟩
  unfold analyze_signal
  rw [find_dominant_replicate_zero 1000 100 (by norm_num)]

/-- Claim C1 (amended): when zero bins qualify as peaks,
`find_dominant_frequencies` itself raises nothing and returns empty frequency
and magnitude lists; but `analyze_signal` does not complete — it raises
`ValueError` when its print statement evaluates `np.max` of the empty magnitude
array (and `min()` over the then-empty components dict in `analyze_phases`
would equally raise), so the pipeline never returns the empty result the claim
describes. -/
theorem C1_zero_peaks (sem : ButterCoeffs → List ℝ → List ℝ) (rate : ℚ)
    (signal : List ℝ) (mags : List ℝ)
    (h : find_dominant_frequencies rate signal = .ok ([], mags)) :
    mags = [] ∧ analyze_signal sem rate signal = .error .valueError := by
  obtain ⟨hf, hm⟩ := find_dominant_ok h
  have htop : (peakSelect (magnitudeSpectrum signal) (signal.length / 100)).take 5 = [] :=
    List.map_eq_nil_iff.mp hf.symm
  have hmags : mags = [] := by rw [hm, htop]; rfl
  subst hmags
  refine ⟨rfl, ?_⟩
  unfold analyze_signal
  rw [h]

theorem C1_witness :
    find_dominant_frequencies 1000 (List.replicate 100 (0 : ℝ)) = .ok ([], []) ∧
    ([] : List ℝ) = [] ∧
    analyze_signal (fun _ x => x) 1000 (List.replicate 100 (0 : ℝ)) =
      .error .valueError :=
  ⟨find_dominant_replicate_zero 1000 100 (by norm_num),
   C1_zero_peaks (fun _ x => x) 1000 (List.replicate 100 0) []
     (find_dominant_replicate_zero 1000 100 (by norm_num))⟩

/-- Claim C5: a successful `find_dominant_frequencies` call returns as many
magnitudes as frequencies, at most 5 of each (fewer, possibly zero, when fewer
peaks qualify), both lists being the images of one list of retained peak bins —
so they are paired in the same order — and that bin list is ordered by
non-increasing prominence. -/
theorem C5_top_five (rate : ℚ) (signal : List ℝ) (freqs : List ℚ) (mags : List ℝ)
    (h : find_dominant_frequencies rate signal = .ok (freqs, mags)) :
    freqs.length = mags.length ∧ freqs.length ≤ 5 ∧ mags.length ≤ 5 ∧
    ∃ top : List ℕ,
      freqs = top.map (fun p : ℕ => (p : ℚ) * rate / (signal.length : ℚ)) ∧
      mags = top.map (fun p => (magnitudeSpectrum signal).getD p 0) ∧
      top.Pairwise (fun a b => prominence (magnitudeSpectrum signal) b ≤
        prominence (magnitudeSpectrum signal) a) := by
  obtain ⟨hf, hm⟩ := find_dominant_ok h
  have hlen5 : ((peakSelect (magnitudeSpectrum signal) (signal.length / 100)).take 5).length ≤ 5 := by
    rw [List.length_take]
    exact min_le_left _ _
  refine ⟨?_, ?_, ?_, (peakSelect (magnitudeSpectrum signal) (signal.length / 100)).take 5,
    hf, hm, ?_⟩
  · rw [hf, hm, List.length_map, List.length_map]
  · rw [hf, List.length_map]
    exact hlen5
  · rw [hm, List.length_map]
    exact hlen5
  · exact List.Pairwise.sublist (List.take_sublist 5 _)
      (peakSelect_prom_sorted (magnitudeSpectrum signal) (signal.length / 100))

theorem C5_witness :
    find_dominant_frequencies 1000 (List.replicate 100 (0 : ℝ)) = .ok ([], []) ∧
    (([] : List ℚ).length = ([] : List ℝ).length ∧ ([] : List ℚ).length ≤ 5 ∧
     ([] : List ℝ).length ≤ 5 ∧
     ∃ top : List ℕ,
       ([] : List ℚ) = top.map (fun p : ℕ =>
           (p : ℚ) * 1000 / ((List.replicate 100 (0 : ℝ)).length : ℚ)) ∧
       ([] : List ℝ) = top.map (fun p =>
           (magnitudeSpectrum (List.replicate 100 (0 : ℝ))).getD p 0) ∧
       top.Pairwise (fun a b =>
         prominence (magnitudeSpectrum (List.replicate 100 (0 : ℝ))) b ≤
           prominence (magnitudeSpectrum (List.replicate 100 (0 : ℝ))) a)) :=
  ⟨find_dominant_replicate_zero 1000 100 (by norm_num),
   C5_top_five 1000 (List.replicate 100 0) [] []
     (find_dominant_replicate_zero 1000 100 (by norm_num))⟩

/-- Claim C3: for a signal of length at least 2 at a positive sample rate, a
successful `find_dominant_frequencies` call computes the magnitude spectrum as
`2/n` times the absolute DFT restricted to the first `n/2` bins, and every
returned peak bin is a local maximum whose magnitude is at least 5% of the
spectrum's maximum, whose prominence (height above the lowest valley reached
before a higher sample on either side) is at least 5% of the spectrum's
maximum, and any two returned bins are at least `n/100` bins apart.  (scipy
compares both thresholds with `≤`, so a bin exactly at 5% qualifies; the
distance condition is enforced by the greedy tallest-first pruning of
`find_peaks`.) -/
theorem C3_spectrum_and_peaks (rate : ℚ) (signal : List ℝ)
    (freqs : List ℚ) (mags : List ℝ)
    (_hlen : 2 ≤ signal.length) (_hrate : 0 < rate)
    (h : find_dominant_frequencies rate signal = .ok (freqs, mags)) :
    magnitudeSpectrum signal = (List.range (signal.length / 2)).map
        (fun k => 2 / (signal.length : ℝ) * Complex.abs (dftC signal k)) ∧
    ∃ top : List ℕ,
      freqs = top.map (fun p : ℕ => (p : ℚ) * rate / (signal.length : ℚ)) ∧
      mags = top.map (fun p => (magnitudeSpectrum signal).getD p 0) ∧
      (∀ p ∈ top, p ∈ localMaxima (magnitudeSpectrum signal)) ∧
      (∀ p ∈ top, (0.05 : ℝ) * npMax (magnitudeSpectrum signal) ≤
          (magnitudeSpectrum signal).getD p 0) ∧
      (∀ p ∈ top, (0.05 : ℝ) * npMax (magnitudeSpectrum signal) ≤
          prominence (magnitudeSpectrum signal) p) ∧
      top.Pairwise (fun a b => signal.length / 100 ≤ Nat.dist a b) := by
  obtain ⟨hf, hm⟩ := find_dominant_ok h
  refine ⟨rfl, (peakSelect (magnitudeSpectrum signal) (signal.length / 100)).take 5,
    hf, hm, ?_, ?_, ?_, ?_⟩
  · intro p hp
    exact (peakSelect_mem (List.take_subset 5 _ hp)).1
  · intro p hp
    exact (peakSelect_mem (List.take_subset 5 _ hp)).2.1
  · intro p hp
    exact (peakSelect_mem (List.take_subset 5 _ hp)).2.2
  · exact List.Pairwise.sublist (List.take_sublist 5 _)
      (peakSelect_pairwise_dist (magnitudeSpectrum signal) (signal.length / 100))

theorem C3_witness :
    2 ≤ (List.replicate 100 (0 : ℝ)).length ∧ (0 : ℚ) < 1000 ∧
    find_dominant_frequencies 1000 (List.replicate 100 (0 : ℝ)) = .ok ([], []) ∧
    (magnitudeSpectrum (List.replicate 100 (0 : ℝ)) =
        (List.range ((List.replicate 100 (0 : ℝ)).length / 2)).map
          (fun k => 2 / ((List.replicate 100 (0 : ℝ)).length : ℝ) *
            Complex.abs (dftC (List.replicate 100 (0 : ℝ)) k)) ∧
     ∃ top : List ℕ,
       ([] : List ℚ) = top.map (fun p : ℕ =>
           (p : ℚ) * 1000 / ((List.replicate 100 (0 : ℝ)).length : ℚ)) ∧
       ([] : List ℝ) = top.map (fun p =>
           (magnitudeSpectrum (List.replicate 100 (0 : ℝ))).getD p 0) ∧
       (∀ p ∈ top, p ∈ localMaxima (magnitudeSpectrum (List.replicate 100 (0 : ℝ)))) ∧
       (∀ p ∈ top, (0.05 : ℝ) * npMax (magnitudeSpectrum (List.replicate 100 (0 : ℝ))) ≤
           (magnitudeSpectrum (List.replicate 100 (0 : ℝ))).getD p 0) ∧
       (∀ p ∈ top, (0.05 : ℝ) * npMax (magnitudeSpectrum (List.replicate 100 (0 : ℝ))) ≤
           prominence (magnitudeSpectrum (List.replicate 100 (0 : ℝ))) p) ∧
       top.Pairwise (fun a b =>
         (List.replicate 100 (0 : ℝ)).length / 100 ≤ Nat.dist a b)) :=
  ⟨by simp, by norm_num,
   find_dominant_replicate_zero 1000 100 (by norm_num),
   C3_spectrum_and_peaks 1000 (List.replicate 100 0) [] [] (by simp) (by norm_num)
     (find_dominant_replicate_zero 1000 100 (by norm_num))⟩

theorem phaseLoop_val_form {ref : ℚ} {refPhase : List ℝ} :
    ∀ {comps phs : List (ℚ × List ℝ)} {f : ℚ} {ph : List ℝ},
      phaseLoop ref refPhase comps = .ok phs → (f, ph) ∈ phs →
      ∃ c, ph = List.zipWith (fun a b => rmod (a - b) (2 * Real.pi))
        (instPhase c) refPhase := by
  intro comps
  induction comps with
  | nil =>
      intro phs f ph h hm
      simp only [phaseLoop, Except.ok.injEq] at h
      rw [← h] at hm
      simp at hm
  | cons p rest ih =>
      intro phs f ph h hm
      obtain ⟨f0, c0⟩ := p
      unfold phaseLoop at h
      by_cases hf : f0 = ref
      · rw [if_pos hf] at h
        exact ih h hm
      · rw [if_neg hf] at h
        by_cases hl : (instPhase c0).length = refPhase.length
        · rw [if_pos hl] at h
          cases hrec : phaseLoop ref refPhase rest with
          | error e => rw [hrec] at h; exact Except.noConfusion h
          | ok tail =>
              rw [hrec] at h
              simp only [Except.ok.injEq] at h
              rw [← h] at hm
              rcases List.mem_cons.mp hm with hh | ht
              · obtain ⟨_, h2⟩ := Prod.mk.inj hh
                exact ⟨c0, h2⟩
              · exact ih hrec ht
        · rw [if_neg hl] at h
          exact Except.noConfusion h

/-- Claim C4: for every non-empty components dict, `analyze_phases` takes the
minimum key as reference; every other entry contributes its unwrapped
instantaneous phase minus the reference's, wrapped into `[0, 2*pi)` by modulo,
sample for sample; the reference never appears as an output key; every output
phase series is as long as every input component; and a dict with exactly one
entry yields the empty result. -/
theorem C4_relative_phases :
    (∀ (components phases : List (ℚ × List ℝ)) (ref : ℚ),
       (components.map Prod.fst).Nodup →
       minKey? components = some ref →
       analyze_phases components = .ok phases →
       ((∀ g c, (g, c) ∈ components → ref ≤ g) ∧
        lookupQ ref phases = none ∧
        (∀ f c, (f, c) ∈ components → f ≠ ref →
           (f, List.zipWith (fun a b => rmod (a - b) (2 * Real.pi)) (instPhase c)
                 (instPhase ((lookupQ ref components).getD []))) ∈ phases) ∧
        (∀ f ph, (f, ph) ∈ phases → ∀ g c, (g, c) ∈ components →
           ph.length = c.length) ∧
        (∀ f ph, (f, ph) ∈ phases → ∀ v ∈ ph, 0 ≤ v ∧ v < 2 * Real.pi))) ∧
    (∀ (f : ℚ) (c : List ℝ), analyze_phases [(f, c)] = .ok []) := by
  constructor
  · intro comps phases ref hnd hmin h
    have hloop : phaseLoop ref (instPhase ((lookupQ ref comps).getD [])) comps =
        .ok phases := by
      unfold analyze_phases at h
      rw [hmin] at h
      exact h
    refine ⟨minKey?_le hmin, phaseLoop_lookup_ref hloop,
      fun f c hm hfr => phaseLoop_mem hloop hm hfr, ?_, ?_⟩
    · intro f ph hph g c hgc
      have h1 : ph.length = (instPhase ((lookupQ ref comps).getD [])).length :=
        phaseLoop_val_length hloop hph
      by_cases hgr : g = ref
      · have hlk : lookupQ ref comps = some c := lookupQ_of_nodup hnd (hgr ▸ hgc)
        rw [h1, hlk]
        simp [instPhase_length]
      · have h2 := phaseLoop_comp_length hloop hgc hgr
        rw [h1, ← h2, instPhase_length]
    · intro f ph hph v hv
      obtain ⟨c, hc⟩ := phaseLoop_val_form hloop hph
      rw [hc] at hv
      obtain ⟨a, b, _, _, hab⟩ := mem_zipWith_exists hv
      rw [hab]
      exact ⟨rmod_nonneg _ _ Real.two_pi_pos, rmod_lt _ _ Real.two_pi_pos⟩
  · intro f c
    unfold analyze_phases
    have hmin : minKey? [(f, c)] = some f := by
      simp [minKey?]
    rw [hmin]
    unfold phaseLoop
    rw [if_pos rfl]
    rfl

theorem rmod_zero (y : ℝ) : rmod 0 y = 0 := by
  unfold rmod
  simp

theorem instPhase_single_zero : instPhase [(0 : ℝ)] = [0] := by
  unfold instPhase hilbertList
  simp [dftC, unwrap, unwrapAux, Complex.arg_zero]

theorem analyze_phases_pair :
    analyze_phases [((1 : ℚ), [(0 : ℝ)]), (2, [0])] = .ok [(2, [(0 : ℝ)])] := by
  have h1 : minKey? [((1 : ℚ), [(0 : ℝ)]), (2, [0])] = some 1 := by
    norm_num [minKey?]
  have h2 : lookupQ (1 : ℚ) [((1 : ℚ), [(0 : ℝ)]), (2, [0])] = some [0] := by
    simp [lookupQ]
  unfold analyze_phases
  rw [h1]
  dsimp only
  rw [h2]
  simp only [Option.getD_some]
  rw [instPhase_single_zero]
  unfold phaseLoop
  rw [if_pos rfl]
  unfold phaseLoop
  rw [if_neg (by norm_num), instPhase_single_zero, if_pos rfl]
  simp [phaseLoop, rmod_zero]

theorem C4_witness :
    (([((1 : ℚ), [(0 : ℝ)]), (2, [0])].map Prod.fst).Nodup ∧
     minKey? [((1 : ℚ), [(0 : ℝ)]), (2, [0])] = some 1 ∧
     analyze_phases [((1 : ℚ), [(0 : ℝ)]), (2, [0])] = .ok [(2, [(0 : ℝ)])] ∧
     lookupQ 1 [((2 : ℚ), [(0 : ℝ)])] = none) ∧
    analyze_phases [((3 : ℚ), [(0 : ℝ)])] = .ok [] := by
  have hnd : ([((1 : ℚ), [(0 : ℝ)]), (2, [0])].map Prod.fst).Nodup := by
    norm_num
  have h1 : minKey? [((1 : ℚ), [(0 : ℝ)]), (2, [0])] = some 1 := by
    norm_num [minKey?]
  exact ⟨⟨hnd, h1, analyze_phases_pair,
    (C4_relative_phases.1 [((1 : ℚ), [(0 : ℝ)]), (2, [0])] [(2, [(0 : ℝ)])] 1 hnd h1
      analyze_phases_pair).2.1⟩,
    C4_relative_phases.2 3 [(0 : ℝ)]⟩
